import Mathlib

/-!
Verification of the wifi scheme module (src/wifi/scheme.py): a shallow
embedding of the stanza text grammar, the scheme store operations, the
activation control flow and the configuration builder, together with
theorems settling the specification's claims about them.

Python `str` values are modelled as `List Char`. Whitespace and word
characters follow Python's ASCII behaviour, which covers every character
that the interface-file grammar and the claims exercise.
-/

namespace Wifi

/-- Text is a list of characters (Python `str`). -/
abbrev Str := List Char

/-- Python whitespace (`str.strip`, regex `\s`), ASCII range. -/
def isSpaceB (c : Char) : Bool :=
  c = ' ' || c = '\t' || c = '\n' || c = '\r' || c = '\x0b' || c = '\x0c'

/-- Python regex word character `\w`, ASCII range. -/
def isWordB (c : Char) : Bool := c.isAlphanum || c = '_'

/-- Python `str.strip()`: drop whitespace from both ends. -/
def stripStr (s : Str) : Str :=
  ((s.dropWhile isSpaceB).reverse.dropWhile isSpaceB).reverse

/-- Python `str.splitlines()` for LF-separated text: the list of lines
without their terminators; a trailing newline produces no extra line. -/
def splitlines : Str → List Str
  | [] => []
  | '\n' :: rest => [] :: splitlines rest
  | c :: rest =>
    match splitlines rest with
    | [] => [[c]]
    | l :: ls => (c :: l) :: ls

/-- Iterating a text file line by line (Python `for line in f`): the lines
keep their trailing newline; a final unterminated line is kept as is. -/
def splitKeep : Str → List Str
  | [] => []
  | '\n' :: rest => ['\n'] :: splitKeep rest
  | c :: rest =>
    match splitKeep rest with
    | [] => [[c]]
    | l :: ls => (c :: l) :: ls

theorem dropWhile_length_le {α : Type} (p : α → Bool) (l : List α) :
    (l.dropWhile p).length ≤ l.length := by
  induction l with
  | nil => simp
  | cons a rest ih =>
    by_cases h : p a
    · simp only [List.dropWhile_cons_of_pos h]; exact Nat.le_succ_of_le ih
    · simp [List.dropWhile_cons_of_neg h]

/-- Python `re.sub(r'\s{2,}', ' ', s)`: every maximal run of two or more
whitespace characters becomes a single space; lone whitespace characters
are kept as they are. -/
def collapseWs : Str → Str
  | [] => []
  | [a] => [a]
  | a :: b :: rest =>
    if isSpaceB a && isSpaceB b then ' ' :: collapseWs (rest.dropWhile isSpaceB)
    else a :: collapseWs (b :: rest)
termination_by l => l.length
decreasing_by
  · simp only [List.length_cons]
    have := dropWhile_length_le isSpaceB rest
    omega
  · simp

/-- Python `s.split(' ', 1)` when it yields two parts: the text before the
first space and the text after it; `none` when there is no space
(where the source's tuple unpacking raises `ValueError`). -/
def splitFirst : Str → Option (Str × Str)
  | [] => none
  | ' ' :: rest => some ([], rest)
  | c :: rest => (splitFirst rest).map (fun p => (c :: p.1, p.2))

/-- Python `dict` assignment `m[k] = v` on an insertion-ordered mapping
modelled as an association list: an existing key keeps its position and
gets the new value, a new key is appended. -/
def dictInsert (m : List (Str × Str)) (k v : Str) : List (Str × Str) :=
  if m.any (fun p => p.1 = k) then
    m.map (fun p => if p.1 = k then (k, v) else p)
  else m ++ [(k, v)]

/-- The match of `scheme_re = re.compile(r'iface\s+(?P<interface>wlan\d?)(?:-(?P<name>\w+))?')`
against the start of a line (`re.match`): `none` when the line does not
match, otherwise the interface group and the optional name group. -/
def matchIface (l : Str) : Option (Str × Option Str) :=
  match l with
  | 'i' :: 'f' :: 'a' :: 'c' :: 'e' :: rest =>
    match rest with
    | c :: rest2 =>
      if isSpaceB c then
        match rest2.dropWhile isSpaceB with
        | 'w' :: 'l' :: 'a' :: 'n' :: r =>
          let p : Str × Str :=
            match r with
            | d :: r2 => if d.isDigit then ('w' :: 'l' :: 'a' :: 'n' :: [d], r2)
                         else ('w' :: 'l' :: 'a' :: 'n' :: [], d :: r2)
            | [] => ('w' :: 'l' :: 'a' :: 'n' :: [], [])
          match p.2 with
          | '-' :: t =>
            let nm := t.takeWhile isWordB
            if nm = [] then some (p.1, none) else some (p.1, some nm)
          | _ => some (p.1, none)
        | _ => none
      else none
    | [] => none
  | _ => none

/-- A line that begins an option line of a stanza (Python
`lines[0].startswith(' ')`). -/
def startsSpace (l : Str) : Bool := l.head? = some ' '

/-- The option-consuming inner loop of `extract_schemes`: each line is
stripped, whitespace runs are collapsed, and the line is split on the
first space into key and value, which is inserted into the options
mapping; a line with no space after collapsing makes the tuple unpacking
raise `ValueError`, modelled as an error. -/
def parseOptionLines : List Str → List (Str × Str) → Except Unit (List (Str × Str))
  | [], opts => .ok opts
  | l :: rest, opts =>
    match splitFirst (collapseWs (stripStr l)) with
    | some (k, v) => parseOptionLines rest (dictInsert opts k v)
    | none => .error ()

/-- A saved scheme: interface, name, and the insertion-ordered options
mapping (Python `dict`). -/
structure Scheme where
  interface : Str
  name : Str
  options : List (Str × Str)
deriving DecidableEq

/-- The body of `extract_schemes` on the line list: pop a line; skip
comments and empty lines; on a header matching `scheme_re` with both
groups present, consume the following space-indented option lines and
yield a scheme; any other line is skipped. Errors raised while parsing
option lines abort the whole (materialised) iteration. -/
def extractAux : List Str → Except Unit (List Scheme)
  | [] => .ok []
  | l :: rest =>
    if l.head? = some '#' ∨ l = [] then extractAux rest
    else
      match matchIface l with
      | some (itf, some nm) =>
        match parseOptionLines (rest.takeWhile startsSpace) [] with
        | .ok opts =>
          match extractAux (rest.dropWhile startsSpace) with
          | .ok ss => .ok (Scheme.mk itf nm opts :: ss)
          | .error e => .error e
        | .error e => .error e
      | _ => extractAux rest
termination_by l => l.length
decreasing_by
  all_goals
    simp only [List.length_cons, Nat.lt_succ_iff]
    first
    | exact Nat.le_refl _
    | exact dropWhile_length_le _ _

/-- Python `extract_schemes(interfaces)`: split the file content into
lines and run the stanza scanner. -/
def extract_schemes (content : Str) : Except Unit (List Scheme) :=
  extractAux (splitlines content)

/-- The stanza header text `"iface {interface}-{name} inet dhcp"` used by
both `Scheme.__str__` and `Scheme.delete`. -/
def headerText (itf nm : Str) : Str :=
  "iface ".data ++ itf ++ '-' :: nm ++ " inet dhcp".data

/-- One serialized option line `"    {k} {v}"` (four-space indent). -/
def optionLine (k v : Str) : Str :=
  ' ' :: ' ' :: ' ' :: ' ' :: (k ++ ' ' :: v)

/-- The serialized option block `''.join("\n    {k} {v}" ...)` of
`Scheme.__str__`. -/
def optionBlock : List (Str × Str) → Str
  | [] => []
  | (k, v) :: rest => '\n' :: optionLine k v ++ optionBlock rest

/-- A stanza text over an arbitrary ordered list of key/value pairs:
header, the option block, and the trailing newline. -/
def mkStanza (itf nm : Str) (ps : List (Str × Str)) : Str :=
  headerText itf nm ++ optionBlock ps ++ ['\n']

/-- Python `Scheme.__str__`: the stanza text of the scheme. -/
def strScheme (s : Scheme) : Str :=
  mkStanza s.interface s.name s.options

/-- Python `Scheme.iface`: `"{interface}-{name}"`. -/
def Scheme.iface (s : Scheme) : Str := s.interface ++ '-' :: s.name

/-- Python `Scheme.find(interface, name)` over a given file content: the
first parsed scheme whose interface and name both match, or `none`; a
parse error (from materialising the generator) propagates. -/
def findScheme (content : Str) (itf nm : Str) : Except Unit (Option Scheme) :=
  match extract_schemes content with
  | .ok ss => .ok ((ss.filter (fun t => t.interface == itf && t.name == nm)).head?)
  | .error e => .error e

/-- The outcomes of `Scheme.save`: the failed `assert` on a duplicate
scheme, or a `ValueError` raised while parsing the existing file. -/
inductive SaveErr
  | assertionError
  | valueError
deriving DecidableEq

/-- Python `Scheme.save` as a function from the current file content to
the resulting file content: the `assert not self.find(...)` runs before
the file is opened for append, so on failure the content is returned
unchanged together with the error; on success a newline and the stanza
text are appended. -/
def Scheme.save (s : Scheme) (content : Str) : Str × Option SaveErr :=
  match findScheme content s.interface s.name with
  | .error _ => (content, some SaveErr.valueError)
  | .ok (some _) => (content, some SaveErr.assertionError)
  | .ok none => (content ++ '\n' :: strScheme s, none)

/-- The filtering loop of `Scheme.delete`: iterate over the file's lines
(terminators kept); a blank line leaves skip mode, a line whose stripped
text equals the header enters it; lines seen while not in skip mode are
retained. -/
def keepLines (header : Str) : List Str → Bool → List Str
  | [], _ => []
  | l :: rest, skip =>
    let skip2 := if stripStr l = [] then false
                 else if stripStr l = header then true
                 else skip
    (if skip2 then [] else [l]) ++ keepLines header rest skip2

/-- Python `Scheme.delete`: read the file line by line, drop the stanza
whose stripped line equals `"iface {interface}-{name} inet dhcp"` up to
the next blank line, and write back the concatenation of the retained
lines. -/
def Scheme.delete (s : Scheme) (content : Str) : Str :=
  (keepLines (headerText s.interface s.name) (splitKeep content) false).flatten

/-- Python `Scheme.as_args`: `["{interface}={iface}"]` followed by
`-o k=v` pairs for the options in mapping order. -/
def Scheme.as_args (s : Scheme) : List Str :=
  (s.interface ++ '=' :: Scheme.iface s)
    :: (s.options.foldr (fun p acc => "-o".data :: (p.1 ++ '=' :: p.2) :: acc) [])

/-- Python `repr(string)` for the strings this module prints: quote with
a single quote, or a double quote when the text contains a single quote
and no double quote; escape the backslash, the quote character and the
common control characters. -/
def pyCharRepr (q c : Char) : Str :=
  if c = '\\' then ['\\', '\\']
  else if c = q then ['\\', q]
  else if c = '\n' then ['\\', 'n']
  else if c = '\t' then ['\\', 't']
  else if c = '\r' then ['\\', 'r']
  else [c]

/-- Python `repr` of a string: choose the quote, escape the body. -/
def pyStrRepr (s : Str) : Str :=
  let q : Char := if '\'' ∈ s ∧ ¬ '"' ∈ s then '"' else '\''
  q :: (s.foldr (fun c acc => pyCharRepr q c ++ acc) []) ++ [q]

/-- Python `repr` of the options dict: quoted keys and values joined by
a comma and a space, between braces. -/
def pyDictReprBody : List (Str × Str) → Str
  | [] => []
  | [(k, v)] => pyStrRepr k ++ ':' :: ' ' :: pyStrRepr v
  | (k, v) :: rest => pyStrRepr k ++ ':' :: ' ' :: pyStrRepr v ++ ',' :: ' ' :: pyDictReprBody rest

/-- Python `repr` of a dict of strings. -/
def pyDictRepr (m : List (Str × Str)) : Str :=
  '\x7b' :: pyDictReprBody m ++ ['\x7d']

/-- Python `Scheme.__repr__`: note that the source's format string lacks
the closing parenthesis. -/
def reprScheme (s : Scheme) : Str :=
  "Scheme(interface=".data ++ pyStrRepr s.interface
    ++ ", name=".data ++ pyStrRepr s.name
    ++ ", options=".data ++ pyDictRepr s.options

/-- The outcome of `Scheme.activate`: a connection, a propagated
`CalledProcessError` from one of the external commands, or the
`ConnectionError` raised when no current connection is found. -/
inductive ActResult (α : Type)
  | ok (c : α)
  | procError
  | connectionError (msg : Str)
deriving DecidableEq

/-- Python `Scheme.activate`, with the external collaborators passed in:
`run` executes a command line (`subprocess.check_output`, erring like
`CalledProcessError`), `query` is `Connection.current_for_scheme`. The
interface is brought down, then up with `as_args`; then the current
connection is queried, and its absence raises
`ConnectionError("Failed to connect to %r" % self)`. -/
def Scheme.activate {α : Type} (run : List Str → Except Unit Str)
    (query : Scheme → Option α) (s : Scheme) : ActResult α :=
  match run ["/sbin/ifdown".data, s.interface] with
  | .error _ => ActResult.procError
  | .ok _ =>
    match run ("/sbin/ifup".data :: Scheme.as_args s) with
    | .error _ => ActResult.procError
    | .ok _ =>
      match query s with
      | some c => ActResult.ok c
      | none => ActResult.connectionError ("Failed to connect to ".data ++ reprScheme s)

/-- A discovered wireless cell, as consumed by `configuration`. -/
structure Cell where
  ssid : Str
  encrypted : Bool
  encryption_type : Str
deriving DecidableEq

/-- The error raised by `configuration` on an unrecognised encryption
type; the specification names this kind `UnsupportedEncryption`, the
source raises `NotImplementedError`. -/
inductive ConfErr
  | notImplementedError
deriving DecidableEq

/-- Python `cell.encryption_type.startswith('wpa')`. -/
def startsWithWpa : Str → Bool
  | 'w' :: 'p' :: 'a' :: _ => true
  | _ => false

/-- Modelled from the spec: the external PBKDF2 collaborator
(`PBKDF2(passkey, ssid, iterations).hexread(nbytes)` from the `pbkdf2`
package, which is not part of this repository). The specification says
it derives a 32-byte, 64 hex-character key from the passphrase with the
SSID as salt; it is kept abstract as a function parameter, and this
predicate states the output contract the specification gives it. -/
def SpecPBKDF2 (f : Str → Str → Nat → Nat → Str) : Prop :=
  ∀ p s, (f p s 4096 32).length = 64 ∧ ∀ c ∈ f p s 4096 32, (c.isDigit || ('a' ≤ c && c ≤ 'f')) = true

/-- Python `configuration(cell, passkey)` for a supplied (non-`None`)
passkey, with the PBKDF2 collaborator passed in: branch on encryption
state and type, derive the WPA key when the passkey is not 64 characters
long, and raise `NotImplementedError` on any other encryption type. -/
def configuration (pbkdf2hex : Str → Str → Nat → Nat → Str)
    (cell : Cell) (passkey : Str) : Except ConfErr (List (Str × Str)) :=
  if cell.encrypted = false then
    .ok [("wireless-essid".data, cell.ssid), ("wireless-channel".data, "auto".data)]
  else if startsWithWpa cell.encryption_type then
    let pk := if passkey.length ≠ 64 then pbkdf2hex passkey cell.ssid 4096 32 else passkey
    .ok [("wpa-ssid".data, cell.ssid), ("wpa-psk".data, pk), ("wireless-channel".data, "auto".data)]
  else if cell.encryption_type = "wep".data then
    .ok [("wireless-essid".data, cell.ssid), ("wireless-key".data, passkey)]
  else
    .error ConfErr.notImplementedError

/-! ### Generic list helpers -/

theorem takeWhile_append_all {α : Type} (p : α → Bool) (a : List α) (x : α) (t : List α)
    (ha : ∀ c ∈ a, p c = true) (hx : p x = false) :
    (a ++ x :: t).takeWhile p = a := by
  induction a with
  | nil => simp [List.takeWhile_cons, hx]
  | cons c a ih =>
    have hc : p c = true := ha c (List.mem_cons_self c a)
    simp only [List.cons_append, List.takeWhile_cons, hc, if_true]
    rw [ih (fun d hd => ha d (List.mem_cons_of_mem c hd))]

theorem dropWhile_append_all {α : Type} (p : α → Bool) (a b : List α)
    (ha : ∀ c ∈ a, p c = true) :
    (a ++ b).dropWhile p = b.dropWhile p := by
  induction a with
  | nil => simp
  | cons c a ih =>
    have hc : p c = true := ha c (List.mem_cons_self c a)
    simp only [List.cons_append, List.dropWhile_cons_of_pos hc]
    exact ih (fun d hd => ha d (List.mem_cons_of_mem c hd))

theorem takeWhile_all {α : Type} (p : α → Bool) (l : List α)
    (h : ∀ c ∈ l, p c = true) : l.takeWhile p = l := by
  induction l with
  | nil => rfl
  | cons c l ih =>
    simp only [List.takeWhile_cons, h c (List.mem_cons_self c l), if_true]
    rw [ih (fun d hd => h d (List.mem_cons_of_mem c hd))]

theorem dropWhile_all {α : Type} (p : α → Bool) (l : List α)
    (h : ∀ c ∈ l, p c = true) : l.dropWhile p = [] := by
  induction l with
  | nil => rfl
  | cons c l ih =>
    simp only [List.dropWhile_cons_of_pos (h c (List.mem_cons_self c l))]
    exact ih (fun d hd => h d (List.mem_cons_of_mem c hd))

theorem dropWhile_eq_self_of_head {α : Type} (p : α → Bool) (l : List α)
    (h : ∀ c, l.head? = some c → p c = false) : l.dropWhile p = l := by
  cases l with
  | nil => rfl
  | cons c l => exact List.dropWhile_cons_of_neg (by simp [h c rfl])

/-! ### `splitlines` and `splitKeep` -/

theorem splitlines_append (a b : Str) (h : '\n' ∉ a) :
    splitlines (a ++ '\n' :: b) = a :: splitlines b := by
  induction a with
  | nil => simp [splitlines]
  | cons c a ih =>
    have hc : c ≠ '\n' := fun hcn => h (hcn ▸ List.mem_cons_self c a)
    have ha : '\n' ∉ a := fun hm => h (List.mem_cons_of_mem c hm)
    rw [List.cons_append, splitlines]
    · rw [ih ha]
    · exact hc

theorem splitlines_singleton (a : Str) (h : '\n' ∉ a) (hne : a ≠ []) :
    splitlines a = [a] := by
  induction a with
  | nil => exact absurd rfl hne
  | cons c a ih =>
    have hc : c ≠ '\n' := fun hcn => h (hcn ▸ List.mem_cons_self c a)
    have ha : '\n' ∉ a := fun hm => h (List.mem_cons_of_mem c hm)
    rw [splitlines]
    · cases haa : a with
      | nil => simp [splitlines]
      | cons d a2 => rw [← haa, ih ha (by simp [haa])]
    · exact hc

theorem splitKeep_append (a b : Str) (h : '\n' ∉ a) :
    splitKeep (a ++ '\n' :: b) = (a ++ ['\n']) :: splitKeep b := by
  induction a with
  | nil => simp [splitKeep]
  | cons c a ih =>
    have hc : c ≠ '\n' := fun hcn => h (hcn ▸ List.mem_cons_self c a)
    have ha : '\n' ∉ a := fun hm => h (List.mem_cons_of_mem c hm)
    rw [List.cons_append, splitKeep]
    · rw [ih ha]; simp
    · exact hc

theorem splitKeep_singleton (a : Str) (h : '\n' ∉ a) (hne : a ≠ []) :
    splitKeep a = [a] := by
  induction a with
  | nil => exact absurd rfl hne
  | cons c a ih =>
    have hc : c ≠ '\n' := fun hcn => h (hcn ▸ List.mem_cons_self c a)
    have ha : '\n' ∉ a := fun hm => h (List.mem_cons_of_mem c hm)
    rw [splitKeep]
    · cases haa : a with
      | nil => simp [splitKeep]
      | cons d a2 => rw [← haa, ih ha (by simp [haa])]
    · exact hc

/-! ### Well-formedness of schemes for the round trip -/

/-- No run of two or more whitespace characters (so `re.sub(r'\s{2,}', ' ')`
leaves the text unchanged). -/
def noWsRunB : Str → Bool
  | [] => true
  | [_] => true
  | a :: b :: rest => !(isSpaceB a && isSpaceB b) && noWsRunB (b :: rest)

/-- An interface name the parser's regex accepts in full: `wlan` with an
optional single digit. -/
def ValidInterface (itf : Str) : Prop :=
  itf = "wlan".data ∨ ∃ d, d.isDigit = true ∧ itf = "wlan".data ++ [d]

/-- A scheme name the parser's regex accepts in full: a nonempty run of
word characters. -/
def ValidName (nm : Str) : Prop :=
  nm ≠ [] ∧ ∀ c ∈ nm, isWordB c = true

/-- An option pair whose serialized line parses back to itself: the key is
nonempty and free of whitespace; the value is nonempty, free of newlines,
starts and ends with non-whitespace and has no run of two or more
whitespace characters. -/
def WfOption (k v : Str) : Prop :=
  k ≠ [] ∧ (∀ c ∈ k, isSpaceB c = false) ∧
  v ≠ [] ∧ '\n' ∉ v ∧
  v.head?.all (fun c => !isSpaceB c) = true ∧
  v.getLast?.all (fun c => !isSpaceB c) = true ∧
  noWsRunB v = true

instance (k v : Str) : Decidable (WfOption k v) := by
  unfold WfOption
  infer_instance

theorem wfOption_head {k v : Str} (h : WfOption k v) :
    ∀ c, v.head? = some c → isSpaceB c = false := by
  intro c hc
  have h2 := h.2.2.2.2.1
  rw [hc] at h2
  simpa using h2

theorem wfOption_last {k v : Str} (h : WfOption k v) :
    ∀ c, v.getLast? = some c → isSpaceB c = false := by
  intro c hc
  have h2 := h.2.2.2.2.2.1
  rw [hc] at h2
  simpa using h2

theorem isDigit_isWordB {c : Char} (h : c.isDigit = true) : isWordB c = true := by
  simp [isWordB, Char.isAlphanum, h]

theorem isWordB_not_space {c : Char} (h : isWordB c = true) : isSpaceB c = false := by
  by_contra hs
  rw [Bool.not_eq_false] at hs
  have hs2 : c = ' ' ∨ c = '\t' ∨ c = '\n' ∨ c = '\r' ∨ c = '\x0b' ∨ c = '\x0c' := by
    simpa [isSpaceB, or_assoc] using hs
  rcases hs2 with h2 | h2 | h2 | h2 | h2 | h2 <;> subst h2 <;> exact absurd h (by decide)

theorem validInterface_word {itf : Str} (h : ValidInterface itf) :
    ∀ c ∈ itf, isWordB c = true := by
  rcases h with h | ⟨d, hd, h⟩ <;> subst h
  · exact fun c hc => (by decide : ∀ c ∈ "wlan".data, isWordB c = true) c hc
  · intro c hc
    rw [List.mem_append] at hc
    rcases hc with hc | hc
    · exact (by decide : ∀ c ∈ "wlan".data, isWordB c = true) c hc
    · rw [List.mem_singleton] at hc
      exact hc ▸ isDigit_isWordB hd

theorem headerText_not_nl {itf nm : Str} (hi : ValidInterface itf) (hn : ValidName nm) :
    '\n' ∉ headerText itf nm := by
  intro hm
  rw [headerText] at hm
  rcases List.mem_append.mp hm with hm | hm
  · rcases List.mem_append.mp hm with hm | hm
    · rcases List.mem_append.mp hm with hm | hm
      · exact absurd hm (by decide)
      · exact absurd (validInterface_word hi _ hm) (by decide)
    · rcases List.mem_cons.mp hm with hm | hm
      · exact absurd hm (by decide)
      · exact absurd (hn.2 _ hm) (by decide)
  · exact absurd hm (by decide)

theorem not_space_mem_ne_nl {l : Str} (h : ∀ c ∈ l, isSpaceB c = false) : '\n' ∉ l := by
  intro hm
  exact absurd (h _ hm) (by simp [isSpaceB])

theorem optionLine_not_nl {k v : Str} (h : WfOption k v) : '\n' ∉ optionLine k v := by
  intro hm
  rw [optionLine, List.mem_cons] at hm
  rcases hm with hm | hm
  · exact absurd hm (by decide)
  rw [List.mem_cons] at hm
  rcases hm with hm | hm
  · exact absurd hm (by decide)
  rw [List.mem_cons] at hm
  rcases hm with hm | hm
  · exact absurd hm (by decide)
  rw [List.mem_cons] at hm
  rcases hm with hm | hm
  · exact absurd hm (by decide)
  rw [List.mem_append] at hm
  rcases hm with hm | hm
  · exact not_space_mem_ne_nl h.2.1 hm
  rw [List.mem_cons] at hm
  rcases hm with hm | hm
  · exact absurd hm (by decide)
  · exact h.2.2.2.1 hm

/-- The lines of a serialized stanza: the header followed by one line per
option pair. -/
theorem splitlines_mkStanza (itf nm : Str) (ps : List (Str × Str))
    (hi : ValidInterface itf) (hn : ValidName nm)
    (hp : ∀ p ∈ ps, WfOption p.1 p.2) :
    splitlines (mkStanza itf nm ps)
      = headerText itf nm :: ps.map (fun p => optionLine p.1 p.2) := by
  have main : ∀ (qs : List (Str × Str)), (∀ p ∈ qs, WfOption p.1 p.2) →
      ∀ (head : Str), '\n' ∉ head →
      splitlines (head ++ optionBlock qs ++ ['\n'])
        = head :: qs.map (fun p => optionLine p.1 p.2) := by
    intro qs
    induction qs with
    | nil =>
      intro _ head hh
      simpa [optionBlock] using splitlines_append head [] hh
    | cons p qs ih =>
      intro hq head hh
      obtain ⟨k, v⟩ := p
      have hwf : WfOption k v := hq (k, v) (List.mem_cons_self _ _)
      have step : head ++ optionBlock ((k, v) :: qs) ++ ['\n']
          = head ++ '\n' :: (optionLine k v ++ optionBlock qs ++ ['\n']) := by
        simp [optionBlock]
      rw [step, splitlines_append head _ hh,
        ih (fun p hp2 => hq p (List.mem_cons_of_mem _ hp2)) (optionLine k v)
          (optionLine_not_nl hwf)]
      simp
  have := main ps hp (headerText itf nm) (headerText_not_nl hi hn)
  simpa [mkStanza] using this

/-! ### The regex on a serialized header -/

/-- The parser's regex recovers the interface and name from a serialized
stanza header. -/
theorem matchIface_headerText {itf nm : Str} (hi : ValidInterface itf) (hn : ValidName nm) :
    matchIface (headerText itf nm) = some (itf, some nm) := by
  have htake : (nm ++ ' ' :: "inet dhcp".data).takeWhile isWordB = nm :=
    takeWhile_append_all isWordB nm ' ' _ hn.2 (by decide)
  rcases hi with h | ⟨d, hd, h⟩ <;> subst h
  · have e : headerText "wlan".data nm
        = 'i' :: 'f' :: 'a' :: 'c' :: 'e' :: ' '
          :: 'w' :: 'l' :: 'a' :: 'n' :: '-' :: (nm ++ ' ' :: "inet dhcp".data) := by
      simp [headerText]
    rw [e, matchIface]
    simp [(by decide : isSpaceB ' ' = true), List.dropWhile,
      (by decide : isSpaceB 'w' = false), htake, hn.1]
  · have e : headerText ("wlan".data ++ [d]) nm
        = 'i' :: 'f' :: 'a' :: 'c' :: 'e' :: ' '
          :: 'w' :: 'l' :: 'a' :: 'n' :: d :: '-' :: (nm ++ ' ' :: "inet dhcp".data) := by
      simp [headerText]
    rw [e, matchIface]
    simp [(by decide : isSpaceB ' ' = true), List.dropWhile,
      (by decide : isSpaceB 'w' = false), htake, hn.1, hd]

/-! ### Parsing back a serialized option line -/

theorem noWsRunB_cons (a : Char) (l : Str) (ha : isSpaceB a = false)
    (hl : noWsRunB l = true) : noWsRunB (a :: l) = true := by
  cases l with
  | nil => rfl
  | cons b r => rw [noWsRunB]; simp [ha, hl]

theorem noWsRunB_space_cons {v : Str}
    (hvh : ∀ c, v.head? = some c → isSpaceB c = false) (hv : noWsRunB v = true) :
    noWsRunB (' ' :: v) = true := by
  cases v with
  | nil => rfl
  | cons c r => rw [noWsRunB]; simp [hvh c rfl, hv]

theorem noWsRun_append : ∀ (k l : Str), (∀ c ∈ k, isSpaceB c = false) →
    noWsRunB l = true → noWsRunB (k ++ l) = true
  | [], _, _, hl => hl
  | c :: kt, l, hk, hl => by
    rw [List.cons_append]
    exact noWsRunB_cons c _ (hk c (List.mem_cons_self _ _))
      (noWsRun_append kt l (fun d hd => hk d (List.mem_cons_of_mem _ hd)) hl)

theorem noWsRun_sep {k v : Str} (h : WfOption k v) : noWsRunB (k ++ ' ' :: v) = true :=
  noWsRun_append k (' ' :: v) h.2.1
    (noWsRunB_space_cons (wfOption_head h) h.2.2.2.2.2.2)

/-- Text with no whitespace run is a fixed point of the collapsing
substitution. -/
theorem collapseWs_eq_self : ∀ l : Str, noWsRunB l = true → collapseWs l = l
  | [], _ => by rw [collapseWs]
  | [_], _ => by rw [collapseWs]
  | a :: b :: rest, h => by
    rw [noWsRunB, Bool.and_eq_true, Bool.not_eq_true'] at h
    rw [collapseWs, if_neg (by simp [h.1]), collapseWs_eq_self (b :: rest) h.2]

theorem rstrip_noop {m : Str} (h : ∀ c, m.getLast? = some c → isSpaceB c = false) :
    (m.reverse.dropWhile isSpaceB).reverse = m := by
  rw [dropWhile_eq_self_of_head isSpaceB m.reverse
    (fun c hc => h c (by rw [List.getLast?_eq_head?_reverse]; exact hc)), List.reverse_reverse]

theorem getLast?_key_sep {k v : Str} (hv : v ≠ []) :
    (k ++ ' ' :: v).getLast? = v.getLast? := by
  rw [List.getLast?_append_of_ne_nil k (by simp)]
  rw [show (' ' :: v) = [' '] ++ v from rfl, List.getLast?_append_of_ne_nil [' '] hv]

theorem stripStr_optionLine {k v : Str} (h : WfOption k v) :
    stripStr (optionLine k v) = k ++ ' ' :: v := by
  have hvl := wfOption_last h
  obtain ⟨hk, hkw, hv, _, _, _, _⟩ := h
  have hleft : (optionLine k v).dropWhile isSpaceB = k ++ ' ' :: v := by
    rw [optionLine, List.dropWhile_cons_of_pos (by decide),
      List.dropWhile_cons_of_pos (by decide), List.dropWhile_cons_of_pos (by decide),
      List.dropWhile_cons_of_pos (by decide)]
    cases k with
    | nil => exact absurd rfl hk
    | cons c kt =>
      rw [List.cons_append]
      exact List.dropWhile_cons_of_neg (by simp [hkw c (List.mem_cons_self _ _)])
  rw [stripStr, hleft]
  exact rstrip_noop (fun c hc => hvl c (by rwa [getLast?_key_sep hv] at hc))

theorem splitFirst_sep {k v : Str} (hk : ∀ c ∈ k, isSpaceB c = false) :
    splitFirst (k ++ ' ' :: v) = some (k, v) := by
  induction k with
  | nil => rfl
  | cons c kt ih =>
    have hc : c ≠ ' ' := by
      intro hcs
      have := hk c (List.mem_cons_self _ _)
      rw [hcs] at this
      simp [isSpaceB] at this
    rw [List.cons_append, splitFirst]
    · rw [ih (fun d hd => hk d (List.mem_cons_of_mem _ hd))]
      rfl
    · exact hc

/-- The option loop on the serialized lines of a pair list folds
`dict` insertion over the pairs. -/
theorem parseOptionLines_map (ps : List (Str × Str)) (hp : ∀ p ∈ ps, WfOption p.1 p.2) :
    ∀ acc, parseOptionLines (ps.map (fun p => optionLine p.1 p.2)) acc
      = .ok (ps.foldl (fun m p => dictInsert m p.1 p.2) acc) := by
  induction ps with
  | nil => intro acc; rfl
  | cons p ps ih =>
    intro acc
    obtain ⟨k, v⟩ := p
    have hwf : WfOption k v := hp (k, v) (List.mem_cons_self _ _)
    rw [List.map_cons, parseOptionLines, stripStr_optionLine hwf,
      collapseWs_eq_self _ (noWsRun_sep hwf), splitFirst_sep hwf.2.1]
    exact ih (fun q hq => hp q (List.mem_cons_of_mem _ hq)) (dictInsert acc k v)

/-! ### Extracting a single serialized stanza -/

/-- The keys of an options mapping, in iteration order. -/
def dictKeys (m : List (Str × Str)) : List Str := m.map Prod.fst

/-- Folding `dict` insertion over the option pairs of a stanza, starting
from the empty mapping: the options dict the parser builds. -/
def optionsDict (ps : List (Str × Str)) : List (Str × Str) :=
  ps.foldl (fun m p => dictInsert m p.1 p.2) []

theorem headerText_head (itf nm : Str) : (headerText itf nm).head? = some 'i' := rfl

theorem startsSpace_optionLine (k v : Str) : startsSpace (optionLine k v) = true := rfl

/-- Parsing the text of one serialized stanza yields exactly one scheme,
whose options are the dict built by inserting the pairs in order. -/
theorem extract_mkStanza (itf nm : Str) (ps : List (Str × Str))
    (hi : ValidInterface itf) (hn : ValidName nm) (hp : ∀ p ∈ ps, WfOption p.1 p.2) :
    extract_schemes (mkStanza itf nm ps)
      = .ok [Scheme.mk itf nm (optionsDict ps)] := by
  rw [extract_schemes, splitlines_mkStanza itf nm ps hi hn hp, extractAux]
  have hno : ¬((headerText itf nm).head? = some '#' ∨ headerText itf nm = []) := by
    intro h
    rcases h with h | h
    · rw [headerText_head] at h
      exact absurd h (by decide)
    · have := congrArg List.head? h
      rw [headerText_head] at this
      simp at this
  rw [if_neg hno, matchIface_headerText hi hn]
  have hall : ∀ l ∈ ps.map (fun p => optionLine p.1 p.2), startsSpace l = true := by
    intro l hl
    rw [List.mem_map] at hl
    obtain ⟨p, _, hpl⟩ := hl
    rw [← hpl]
    exact startsSpace_optionLine p.1 p.2
  rw [takeWhile_all startsSpace _ hall, dropWhile_all startsSpace _ hall,
    parseOptionLines_map ps hp [], extractAux]
  rfl

/-! ### Dict folding: fresh keys append in order -/

theorem any_key_iff (m : List (Str × Str)) (k : Str) :
    m.any (fun p => p.1 = k) = true ↔ k ∈ dictKeys m := by
  simp [dictKeys, List.any_eq_true, List.mem_map]

theorem dictInsert_fresh {m : List (Str × Str)} {k v : Str} (h : k ∉ dictKeys m) :
    dictInsert m k v = m ++ [(k, v)] := by
  rw [dictInsert, if_neg]
  intro hany
  exact h ((any_key_iff m k).mp hany)

/-- Inserting pairwise-distinct fresh keys appends the pairs in order. -/
theorem foldl_dictInsert_fresh : ∀ (ps acc : List (Str × Str)),
    (dictKeys acc ++ dictKeys ps).Nodup →
    ps.foldl (fun m p => dictInsert m p.1 p.2) acc = acc ++ ps
  | [], acc, _ => by simp
  | (k, v) :: ps, acc, h => by
    have hsh : dictKeys acc ++ dictKeys ((k, v) :: ps)
        = dictKeys acc ++ k :: dictKeys ps := rfl
    rw [hsh] at h
    have hk : k ∉ dictKeys acc := by
      rw [List.nodup_append] at h
      intro hmem
      exact h.2.2 hmem (List.mem_cons_self _ _)
    rw [List.foldl_cons, dictInsert_fresh hk,
      foldl_dictInsert_fresh ps (acc ++ [(k, v)]) (by
        have : dictKeys (acc ++ [(k, v)]) ++ dictKeys ps
            = dictKeys acc ++ k :: dictKeys ps := by
          simp [dictKeys]
        rw [this]
        exact h)]
    simp

/-- With no duplicate keys, the parser's dict is the pair list itself. -/
theorem optionsDict_nodup {ps : List (Str × Str)} (h : (dictKeys ps).Nodup) :
    optionsDict ps = ps := by
  have := foldl_dictInsert_fresh ps [] (by simpa [dictKeys] using h)
  simpa [optionsDict] using this

/-! ### Claim C1: the round trip -/

/-- A scheme inside the scope of the amended round-trip claim: the
interface and name match the parser's naming convention, and every
option pair survives strip/collapse/split unchanged; the key list of a
Python dict has no duplicates. -/
def RoundTripSafe (s : Scheme) : Prop :=
  ValidInterface s.interface ∧ ValidName s.name ∧
  (∀ p ∈ s.options, WfOption p.1 p.2) ∧ (dictKeys s.options).Nodup

/-- C1, amended: for every Scheme whose interface and name match the
parser's naming convention and whose option keys are nonempty and
whitespace-free, with nonempty values that contain no newline, no run of
two or more whitespace characters, and no leading or trailing whitespace,
parsing the serialized text of the Scheme yields exactly one Scheme whose
interface, name and options mapping (key order included) equal the
original's. -/
theorem C1_round_trip (s : Scheme) (h : RoundTripSafe s) :
    extract_schemes (strScheme s) = .ok [s] := by
  obtain ⟨hi, hn, hp, hnd⟩ := h
  rw [strScheme, extract_mkStanza s.interface s.name s.options hi hn hp,
    optionsDict_nodup hnd]

/-- C1 witness: a concrete scheme with two options round-trips. -/
theorem C1_round_trip_witness :
    extract_schemes (strScheme (Scheme.mk "wlan0".data "work".data
        [("wireless-essid".data, "foo net".data), ("wpa-psk".data, "bar".data)]))
      = .ok [Scheme.mk "wlan0".data "work".data
        [("wireless-essid".data, "foo net".data), ("wpa-psk".data, "bar".data)]] :=
  C1_round_trip _
    ⟨Or.inr ⟨'0', by decide, by decide⟩, ⟨by decide, by decide⟩, by decide, by decide⟩

/-- C1 counterexample to the claim as stated: a scheme with a valid
interface and name but an empty option value serializes to a line whose
tuple unpacking raises `ValueError`, so parsing its text does not yield
the scheme back (nor any scheme at all). -/
theorem C1_counterexample :
    ValidInterface "wlan0".data ∧ ValidName "test".data ∧
    extract_schemes (strScheme (Scheme.mk "wlan0".data "test".data [("key".data, [])]))
        = .error () ∧
    extract_schemes (strScheme (Scheme.mk "wlan0".data "test".data [("key".data, [])]))
        ≠ .ok [Scheme.mk "wlan0".data "test".data [("key".data, [])]] := by
  refine ⟨Or.inr ⟨'0', by decide, by decide⟩, ⟨by decide, by decide⟩, ?e, ?n⟩
  case e =>
    simp [extract_schemes, strScheme, mkStanza, headerText, optionBlock, optionLine,
      splitlines, extractAux, parseOptionLines, matchIface, isSpaceB, stripStr,
      collapseWs, splitFirst, startsSpace, isWordB]
  case n =>
    intro hok
    rw [show strScheme (Scheme.mk "wlan0".data "test".data [("key".data, [])])
        = "iface wlan0-test inet dhcp\n    key \n".data by rfl] at hok
    rw [show extract_schemes "iface wlan0-test inet dhcp\n    key \n".data = .error () from by
      simp [extract_schemes, splitlines, extractAux, parseOptionLines, matchIface, isSpaceB,
        stripStr, collapseWs, splitFirst, startsSpace, isWordB]] at hok
    exact absurd hok (by simp)

/-! ### Claim C7: parser tolerance -/

/-- A line the stanza regex matches with the name group present: the only
kind of line that starts a stanza in `extract_schemes`. -/
def isSchemeHeaderB (l : Str) : Bool :=
  match matchIface l with
  | some (_, some _) => true
  | _ => false

theorem extractAux_no_headers : ∀ (lines : List Str),
    (∀ l ∈ lines, isSchemeHeaderB l = false) → extractAux lines = .ok []
  | [], _ => by rw [extractAux]
  | l :: rest, h => by
    have ihrest := extractAux_no_headers rest (fun x hx => h x (List.mem_cons_of_mem _ hx))
    rw [extractAux]
    by_cases hc : l.head? = some '#' ∨ l = []
    · rw [if_pos hc]
      exact ihrest
    · rw [if_neg hc]
      have hl := h l (List.mem_cons_self _ _)
      rcases hmi : matchIface l with _ | ⟨itf, _ | nm⟩
      · exact ihrest
      · exact ihrest
      · rw [isSchemeHeaderB, hmi] at hl
        simp at hl

/-- C7: a file whose lines never match the scheme regex with a
hyphen-suffixed name (comments, blank lines, stanzas of other
interfaces and their indented option lines) parses to zero schemes and
raises no error. -/
theorem C7_parser_tolerance (content : Str)
    (h : ∀ l ∈ splitlines content, isSchemeHeaderB l = false) :
    extract_schemes content = .ok [] :=
  extractAux_no_headers (splitlines content) h

/-- C7 witness: comments, a blank line and an `eth0` stanza with an
indented option line yield zero schemes without error. -/
theorem C7_parser_tolerance_witness :
    extract_schemes "# interfaces(5) file\n\niface eth0 inet dhcp\n    address 192.168.1.2\n".data
      = .ok [] :=
  C7_parser_tolerance _ (by decide)

/-! ### Claim C3: saving a duplicate scheme -/

/-- C3: when the file parses to a scheme list containing one with the
same interface and name, `save` fails on its assertion and returns the
file content unchanged (the assert runs before the file is opened for
append). -/
theorem C3_save_duplicate (s : Scheme) (content : Str) (l : List Scheme)
    (hok : extract_schemes content = .ok l)
    (t : Scheme) (ht : t ∈ l) (hitf : t.interface = s.interface) (hnm : t.name = s.name) :
    Scheme.save s content = (content, some SaveErr.assertionError) := by
  rw [Scheme.save, findScheme, hok]
  dsimp only
  have hne : l.filter (fun u => u.interface == s.interface && u.name == s.name) ≠ [] := by
    intro hnil
    rw [List.filter_eq_nil_iff] at hnil
    exact hnil t ht (by simp [hitf, hnm])
  rcases hf : l.filter (fun u => u.interface == s.interface && u.name == s.name) with _ | ⟨u, us⟩
  · exact absurd hf hne
  · rw [hf]
    rfl

/-- C3 witness: saving a scheme into a file that already holds a stanza
with the same interface and name fails with the assertion and leaves the
content unchanged. -/
theorem C3_save_duplicate_witness :
    Scheme.save (Scheme.mk "wlan0".data "work".data [])
        "iface wlan0-work inet dhcp\n    wireless-essid foo\n".data
      = ("iface wlan0-work inet dhcp\n    wireless-essid foo\n".data,
         some SaveErr.assertionError) :=
  C3_save_duplicate _ _ [Scheme.mk "wlan0".data "work".data
      [("wireless-essid".data, "foo".data)]]
    (by simp [extract_schemes, splitlines, extractAux, parseOptionLines, matchIface,
      isSpaceB, stripStr, collapseWs, splitFirst, startsSpace, isWordB, dictInsert])
    (Scheme.mk "wlan0".data "work".data [("wireless-essid".data, "foo".data)])
    (List.mem_singleton.mpr rfl) rfl rfl

/-! ### Claims C4, C5, C6: the configuration builder -/

/-- C4: for a WPA-family encrypted cell, a 64-character passkey is used
as given, any other passkey is replaced by the PBKDF2 derivation over the
cell's SSID with 4096 iterations, and the result is exactly the
three-entry mapping; under the specification's contract for PBKDF2 the
derived key is 64 lowercase-hex characters. -/
theorem C4_wpa_configuration (f : Str → Str → Nat → Nat → Str) (hf : SpecPBKDF2 f)
    (cell : Cell) (passkey : Str) (henc : cell.encrypted = true)
    (hwpa : startsWithWpa cell.encryption_type = true) :
    configuration f cell passkey
      = .ok [("wpa-ssid".data, cell.ssid),
             ("wpa-psk".data, if passkey.length = 64 then passkey
                              else f passkey cell.ssid 4096 32),
             ("wireless-channel".data, "auto".data)]
    ∧ ((f passkey cell.ssid 4096 32).length = 64
        ∧ ∀ c ∈ f passkey cell.ssid 4096 32, (c.isDigit || ('a' ≤ c && c ≤ 'f')) = true) := by
  refine ⟨?_, hf passkey cell.ssid⟩
  rw [configuration, if_neg (by simp [henc]), if_pos (by simp [hwpa])]
  by_cases h64 : passkey.length = 64 <;> simp [h64]

/-- C4 witness: a WPA2 cell with a short passkey gets the derived key,
and one with a 64-character passkey keeps it. -/
theorem C4_wpa_configuration_witness :
    configuration (fun _ _ _ _ => List.replicate 64 '0')
        (Cell.mk "home".data true "wpa2".data) "secret".data
      = .ok [("wpa-ssid".data, "home".data),
             ("wpa-psk".data, List.replicate 64 '0'),
             ("wireless-channel".data, "auto".data)] := by
  have h := C4_wpa_configuration (fun _ _ _ _ => List.replicate 64 '0')
    (by
      intro p s
      refine ⟨by simp, ?_⟩
      intro c hc
      rw [List.eq_of_mem_replicate hc]
      decide)
    (Cell.mk "home".data true "wpa2".data) "secret".data rfl (by decide)
  rw [h.1]
  simp

/-- C5: an encrypted cell whose encryption type neither starts with
`wpa` nor equals `wep` makes `configuration` fail with the error the
specification calls `UnsupportedEncryption` (the source raises
`NotImplementedError`), returning no mapping. -/
theorem C5_unsupported_encryption (f : Str → Str → Nat → Nat → Str)
    (cell : Cell) (passkey : Str) (henc : cell.encrypted = true)
    (hwpa : startsWithWpa cell.encryption_type = false)
    (hwep : cell.encryption_type ≠ "wep".data) :
    configuration f cell passkey = .error ConfErr.notImplementedError := by
  rw [configuration, if_neg (by simp [henc]), if_neg (by simp [hwpa]), if_neg hwep]

/-- C5 witness: a WEP-104-labelled cell is rejected. -/
theorem C5_unsupported_encryption_witness :
    configuration (fun _ _ _ _ => []) (Cell.mk "home".data true "wep104x".data) "pw".data
      = .error ConfErr.notImplementedError :=
  C5_unsupported_encryption _ _ _ rfl (by decide) (by decide)

/-- C6: an unencrypted cell yields exactly the two-entry mapping of the
ESSID and the automatic channel, whatever the supplied passkey. -/
theorem C6_unencrypted (f : Str → Str → Nat → Nat → Str)
    (cell : Cell) (passkey : Str) (henc : cell.encrypted = false) :
    configuration f cell passkey
      = .ok [("wireless-essid".data, cell.ssid), ("wireless-channel".data, "auto".data)] := by
  rw [configuration, if_pos (by simp [henc])]

/-- C6 witness: an open network's configuration. -/
theorem C6_unencrypted_witness :
    configuration (fun _ _ _ _ => []) (Cell.mk "cafe".data false []) "ignored".data
      = .ok [("wireless-essid".data, "cafe".data), ("wireless-channel".data, "auto".data)] :=
  C6_unencrypted _ _ _ rfl

/-! ### Claim C8: activation -/

/-- Substring containment on text. -/
def containsSub (sub whole : Str) : Prop := ∃ a b, whole = a ++ sub ++ b

theorem pyCharRepr_word {c : Char} (q : Char) (hq : isWordB q = false)
    (h : isWordB c = true) : pyCharRepr q c = [c] := by
  have h1 : c ≠ '\\' := fun e => by rw [e] at h; exact absurd h (by decide)
  have h2 : c ≠ q := fun e => by rw [e] at h; exact absurd h (by simp [hq])
  have h3 : c ≠ '\n' := fun e => by rw [e] at h; exact absurd h (by decide)
  have h4 : c ≠ '\t' := fun e => by rw [e] at h; exact absurd h (by decide)
  have h5 : c ≠ '\r' := fun e => by rw [e] at h; exact absurd h (by decide)
  simp [pyCharRepr, h1, h2, h3, h4, h5]

/-- The Python repr of a string of word characters is the string between
single quotes, with no escapes. -/
theorem pyStrRepr_word {l : Str} (h : ∀ c ∈ l, isWordB c = true) :
    pyStrRepr l = '\'' :: l ++ ['\''] := by
  rw [pyStrRepr]
  have hq : ¬('\'' ∈ l ∧ ¬ '"' ∈ l) := by
    rintro ⟨hmem, -⟩
    exact absurd (h _ hmem) (by decide)
  rw [if_neg hq]
  have hfold : l.foldr (fun c acc => pyCharRepr '\'' c ++ acc) [] = l := by
    clear hq
    induction l with
    | nil => rfl
    | cons c t ih =>
      rw [List.foldr_cons, pyCharRepr_word '\'' (by decide) (h c (List.mem_cons_self _ _)),
        ih (fun d hd => h d (List.mem_cons_of_mem _ hd))]
      rfl
  rw [hfold]

/-- C8: with a down command and an up command that both succeed,
`activate` returns the queried connection exactly when the current
connection query finds one, and otherwise raises a `ConnectionError`
whose message carries the scheme's representation; for word-character
interface and name the message contains both as substrings. -/
theorem C8_activate {α : Type} (run : List Str → Except Unit Str)
    (query : Scheme → Option α) (s : Scheme) (o1 o2 : Str)
    (hdown : run ["/sbin/ifdown".data, s.interface] = .ok o1)
    (hup : run ("/sbin/ifup".data :: Scheme.as_args s) = .ok o2)
    (hitf : ∀ c ∈ s.interface, isWordB c = true)
    (hnm : ∀ c ∈ s.name, isWordB c = true) :
    (∀ c, query s = some c → Scheme.activate run query s = ActResult.ok c)
    ∧ (query s = none →
        Scheme.activate run query s
          = ActResult.connectionError ("Failed to connect to ".data ++ reprScheme s)
        ∧ containsSub s.interface ("Failed to connect to ".data ++ reprScheme s)
        ∧ containsSub s.name ("Failed to connect to ".data ++ reprScheme s)) := by
  constructor
  · intro c hq
    rw [Scheme.activate, hdown, hup, hq]
  · intro hq
    refine ⟨by rw [Scheme.activate, hdown, hup, hq], ?_, ?_⟩
    · refine ⟨"Failed to connect to ".data ++ "Scheme(interface=".data ++ ['\''],
        ['\''] ++ ", name=".data ++ pyStrRepr s.name ++ ", options=".data
          ++ pyDictRepr s.options, ?_⟩
      rw [reprScheme, pyStrRepr_word hitf]
      simp
    · refine ⟨"Failed to connect to ".data ++ "Scheme(interface=".data
          ++ pyStrRepr s.interface ++ ", name=".data ++ ['\''],
        ['\''] ++ ", options=".data ++ pyDictRepr s.options, ?_⟩
      rw [reprScheme, pyStrRepr_word hnm]
      simp

/-- C8 witness: with succeeding commands, a found connection is returned
and, for the same scheme with no found connection, the error message
contains interface and name. -/
theorem C8_activate_witness :
    Scheme.activate (fun _ => Except.ok []) (fun _ => some 7)
        (Scheme.mk "wlan0".data "work".data []) = ActResult.ok 7
    ∧ Scheme.activate (fun _ => Except.ok []) (fun _ => (none : Option Nat))
        (Scheme.mk "wlan0".data "work".data [])
      = ActResult.connectionError ("Failed to connect to ".data
          ++ reprScheme (Scheme.mk "wlan0".data "work".data []))
    ∧ containsSub "wlan0".data ("Failed to connect to ".data
          ++ reprScheme (Scheme.mk "wlan0".data "work".data [])) := by
  refine ⟨?_, ?_, ?_⟩
  · exact (C8_activate (fun _ => Except.ok []) (fun _ => some 7)
      (Scheme.mk "wlan0".data "work".data []) [] [] rfl rfl
      (by decide) (by decide)).1 7 rfl
  · exact ((C8_activate (fun _ => Except.ok []) (fun _ => (none : Option Nat))
      (Scheme.mk "wlan0".data "work".data []) [] [] rfl rfl
      (by decide) (by decide)).2 rfl).1
  · exact ((C8_activate (fun _ => Except.ok []) (fun _ => (none : Option Nat))
      (Scheme.mk "wlan0".data "work".data []) [] [] rfl rfl
      (by decide) (by decide)).2 rfl).2.1

/-! ### Claims C2 and C10: delete -/

mutual

/-- The amended claim's description of `delete`, written from its words:
drop the line whose stripped text is the stanza header and the following
lines up to (not including) the next blank line, and keep every other
line unchanged. -/
def removeStanza (header : Str) : List Str → List Str
  | [] => []
  | l :: rest =>
    if stripStr l = header then skipTail header rest
    else l :: removeStanza header rest

/-- Inside a dropped stanza: drop lines until one strips to blank, which
is retained; scanning then continues. -/
def skipTail (header : Str) : List Str → List Str
  | [] => []
  | l :: rest =>
    if stripStr l = [] then l :: removeStanza header rest
    else skipTail header rest

end

theorem headerText_ne_nil (itf nm : Str) : headerText itf nm ≠ [] := by
  intro e
  have := congrArg List.head? e
  rw [headerText_head] at this
  simp at this

/-- The delete loop with its boolean skip state agrees with the
stanza-removal description, in both states. -/
theorem keepLines_eq_removeStanza (header : Str) (hne : header ≠ []) :
    ∀ ls : List Str,
      keepLines header ls false = removeStanza header ls
      ∧ keepLines header ls true = skipTail header ls
  | [] => ⟨rfl, rfl⟩
  | l :: rest => by
    have ih := keepLines_eq_removeStanza header hne rest
    by_cases h1 : stripStr l = []
    · have h2 : ¬ stripStr l = header := by rw [h1]; exact fun e => hne e.symm
      constructor
      · rw [keepLines,
          show (if stripStr l = [] then false
                else if stripStr l = header then true else false) = false from if_pos h1,
          removeStanza, if_neg h2, ih.1]
        rfl
      · rw [keepLines,
          show (if stripStr l = [] then false
                else if stripStr l = header then true else true) = false from if_pos h1,
          skipTail, if_pos h1, ih.1]
        rfl
    · by_cases h2 : stripStr l = header
      · constructor
        · rw [keepLines,
            show (if stripStr l = [] then false
                  else if stripStr l = header then true else false) = true from by
              rw [if_neg h1, if_pos h2],
            removeStanza, if_pos h2, ih.2]
          rfl
        · rw [keepLines,
            show (if stripStr l = [] then false
                  else if stripStr l = header then true else true) = true from by
              rw [if_neg h1, if_pos h2],
            skipTail, if_neg (show ¬ stripStr l = [] from fun e => hne (h2.symm.trans e)),
            ih.2]
          rfl
      · constructor
        · rw [keepLines,
            show (if stripStr l = [] then false
                  else if stripStr l = header then true else false) = false from by
              rw [if_neg h1, if_neg h2],
            removeStanza, if_neg h2, ih.1]
          rfl
        · rw [keepLines,
            show (if stripStr l = [] then false
                  else if stripStr l = header then true else true) = true from by
              rw [if_neg h1, if_neg h2],
            skipTail, if_neg h1, ih.2]
          rfl

/-- Every line the delete loop retains is a line of the input. -/
theorem keepLines_sublist (header : Str) : ∀ (ls : List Str) (b : Bool),
    List.Sublist (keepLines header ls b) ls
  | [], _ => List.nil_sublist []
  | l :: rest, b => by
    rw [keepLines]
    by_cases h1 : stripStr l = []
    · rw [show (if stripStr l = [] then false
          else if stripStr l = header then true else b) = false from if_pos h1]
      exact (keepLines_sublist header rest false).cons₂ l
    · by_cases h2 : stripStr l = header
      · rw [show (if stripStr l = [] then false
            else if stripStr l = header then true else b) = true from by
            rw [if_neg h1, if_pos h2]]
        exact (keepLines_sublist header rest true).cons l
      · rw [show (if stripStr l = [] then false
            else if stripStr l = header then true else b) = b from by
            rw [if_neg h1, if_neg h2]]
        cases b
        · exact (keepLines_sublist header rest false).cons₂ l
        · exact (keepLines_sublist header rest true).cons l

/-- No retained line strips to the header. -/
theorem keepLines_no_header {header : Str} (hne : header ≠ []) :
    ∀ (ls : List Str) (b : Bool), ∀ l ∈ keepLines header ls b, stripStr l ≠ header
  | [], _ => by intro l hl; rw [keepLines] at hl; exact absurd hl (List.not_mem_nil l)
  | l :: rest, b => by
    intro x hx
    rw [keepLines] at hx
    by_cases h1 : stripStr l = []
    · rw [show (if stripStr l = [] then false
          else if stripStr l = header then true else b) = false from if_pos h1] at hx
      rcases List.mem_cons.mp hx with he | hx
      · subst he; rw [h1]; exact fun e => hne e.symm
      · exact keepLines_no_header hne rest false x hx
    · by_cases h2 : stripStr l = header
      · rw [show (if stripStr l = [] then false
            else if stripStr l = header then true else b) = true from by
            rw [if_neg h1, if_pos h2]] at hx
        exact keepLines_no_header hne rest true x hx
      · rw [show (if stripStr l = [] then false
            else if stripStr l = header then true else b) = b from by
            rw [if_neg h1, if_neg h2]] at hx
        cases b
        · rcases List.mem_cons.mp hx with he | hx
          · subst he; exact h2
          · exact keepLines_no_header hne rest false x hx
        · exact keepLines_no_header hne rest true x hx

/-- When no line strips to the header, the delete loop keeps every line. -/
theorem keepLines_noop {header : Str} :
    ∀ ls : List Str, (∀ l ∈ ls, stripStr l ≠ header) → keepLines header ls false = ls
  | [], _ => rfl
  | l :: rest, h => by
    have h2 : ¬ stripStr l = header := h l (List.mem_cons_self _ _)
    rw [keepLines]
    by_cases h1 : stripStr l = []
    · rw [show (if stripStr l = [] then false
          else if stripStr l = header then true else false) = false from if_pos h1,
        keepLines_noop rest (fun x hx => h x (List.mem_cons_of_mem _ hx))]
      rfl
    · rw [show (if stripStr l = [] then false
          else if stripStr l = header then true else false) = false from by
          rw [if_neg h1, if_neg h2],
        keepLines_noop rest (fun x hx => h x (List.mem_cons_of_mem _ hx))]
      rfl

/-- A newline-terminated line with no interior newline. -/
def isNLLine (l : Str) : Prop := l ≠ [] ∧ l.getLast? = some '\n' ∧ '\n' ∉ l.dropLast

/-- A nonempty final line with no newline at all. -/
def isBareLine (l : Str) : Prop := l ≠ [] ∧ '\n' ∉ l

/-- The shape `splitKeep` guarantees: every line newline-terminated,
except that a final unterminated line may be bare. -/
def LinesWF : List Str → Prop
  | [] => True
  | l :: rest => (isNLLine l ∧ LinesWF rest) ∨ (isBareLine l ∧ rest = [])

theorem splitKeep_wf (s : Str) : LinesWF (splitKeep s) := by
  induction s with
  | nil => trivial
  | cons c rest ih =>
    by_cases hc : c = '\n'
    · subst hc
      rw [splitKeep]
      exact Or.inl ⟨⟨by simp, rfl, by simp⟩, ih⟩
    · rw [splitKeep]
      · rcases hsk : splitKeep rest with _ | ⟨l, ls⟩
        · refine Or.inr ⟨⟨by simp, ?_⟩, rfl⟩
          intro hm
          rw [List.mem_singleton] at hm
          exact hc hm.symm
        · rw [hsk] at ih
          rcases ih with ⟨⟨hne, hlast, hdrop⟩, hwf⟩ | ⟨⟨hne, hnl⟩, hnil⟩
          · refine Or.inl ⟨⟨by simp, ?_, ?_⟩, hwf⟩
            · rcases l with _ | ⟨x, xs⟩
              · exact absurd rfl hne
              · rw [List.getLast?_cons_cons]
                exact hlast
            · rw [List.dropLast_cons_of_ne_nil hne]
              intro hm
              rcases List.mem_cons.mp hm with he | hm
              · exact hc he.symm
              · exact hdrop hm
          · refine Or.inr ⟨⟨by simp, ?_⟩, hnil⟩
            intro hm
            rcases List.mem_cons.mp hm with he | hm
            · exact hc he.symm
            · exact hnl hm
      · exact hc

theorem linesWF_sublist : ∀ {ks ls : List Str}, List.Sublist ks ls → LinesWF ls → LinesWF ks := by
  intro ks ls hsub
  induction hsub with
  | slnil => exact fun h => h
  | cons a hsub ih =>
    intro h
    rcases h with ⟨_, hwf⟩ | ⟨_, hnil⟩
    · exact ih hwf
    · subst hnil
      rw [List.sublist_nil.mp hsub]
      trivial
  | cons₂ a hsub ih =>
    intro h
    rcases h with ⟨hnl, hwf⟩ | ⟨hbare, hnil⟩
    · exact Or.inl ⟨hnl, ih hwf⟩
    · subst hnil
      rw [List.sublist_nil.mp hsub]
      exact Or.inr ⟨hbare, rfl⟩

theorem splitKeep_flatten (s : Str) : (splitKeep s).flatten = s := by
  induction s with
  | nil => rfl
  | cons c rest ih =>
    by_cases hc : c = '\n'
    · subst hc
      rw [splitKeep, List.flatten_cons, ih]
      rfl
    · rw [splitKeep]
      · rcases hsk : splitKeep rest with _ | ⟨l, ls⟩
        · rw [hsk] at ih
          simp only [List.flatten_nil] at ih
          simp [← ih]
        · rw [hsk] at ih
          rw [List.flatten_cons] at ih ⊢
          rw [List.cons_append, ih]
      · exact hc

/-- Reading back the concatenation of well-formed lines recovers them. -/
theorem splitKeep_of_flatten : ∀ ls : List Str, LinesWF ls → splitKeep ls.flatten = ls
  | [], _ => rfl
  | l :: rest, h => by
    rcases h with ⟨⟨hne, hlast, hdrop⟩, hwf⟩ | ⟨⟨hne, hnl⟩, hnil⟩
    · have hlastc : l.getLast hne = '\n' := by
        rw [List.getLast?_eq_getLast l hne] at hlast
        exact Option.some_inj.mp hlast
      have hl : l.dropLast ++ ['\n'] = l := by
        rw [← hlastc]
        exact List.dropLast_append_getLast hne
      rw [List.flatten_cons, ← hl, List.append_assoc, List.singleton_append,
        splitKeep_append _ _ hdrop, splitKeep_of_flatten rest hwf]
    · subst hnil
      rw [List.flatten_cons, List.flatten_nil, List.append_nil]
      exact splitKeep_singleton l hnl hne

/-- C2, amended: `delete` removes exactly the stanza whose header line
strips (under Python `str.strip`) to `iface <interface>-<name> inet dhcp`
— the header and the following lines up to, and not including, the next
blank line — keeps every other line of the file byte-identical (the
retained lines are a sublist of the file's lines), and leaves the file
content byte-identical when no line strips to that header. -/
theorem C2_delete_frame (s : Scheme) (content : Str) :
    Scheme.delete s content
      = (removeStanza (headerText s.interface s.name) (splitKeep content)).flatten
    ∧ List.Sublist (removeStanza (headerText s.interface s.name) (splitKeep content))
        (splitKeep content)
    ∧ ((∀ l ∈ splitKeep content, stripStr l ≠ headerText s.interface s.name) →
        Scheme.delete s content = content) := by
  have hne := headerText_ne_nil s.interface s.name
  have heq := (keepLines_eq_removeStanza _ hne (splitKeep content)).1
  refine ⟨?_, ?_, ?_⟩
  · rw [Scheme.delete, heq]
  · rw [← heq]
    exact keepLines_sublist _ _ _
  · intro hno
    rw [Scheme.delete, keepLines_noop _ hno, splitKeep_flatten]

/-- C2 witness: deleting a stored scheme removes its stanza up to the
blank separator and keeps the other lines; deleting from a file whose
lines never strip to the header is the identity. -/
theorem C2_delete_frame_witness :
    Scheme.delete (Scheme.mk "wlan0".data "work".data [])
        "# keep\niface wlan0-work inet dhcp\n    wireless-essid foo\n\nrest\n".data
      = "# keep\n\nrest\n".data
    ∧ Scheme.delete (Scheme.mk "wlan0".data "work".data []) "# keep\nrest\n".data
      = "# keep\nrest\n".data := by
  constructor
  · rw [(C2_delete_frame (Scheme.mk "wlan0".data "work".data [])
      "# keep\niface wlan0-work inet dhcp\n    wireless-essid foo\n\nrest\n".data).1]
    decide
  · exact (C2_delete_frame (Scheme.mk "wlan0".data "work".data [])
      "# keep\nrest\n".data).2.2 (by decide)

/-- C2 counterexample to the claim as stated: a file whose only header
line carries a leading space contains no line exactly equal to the
header text, yet `delete` changes the file, because the source compares
lines after stripping them. -/
theorem C2_counterexample :
    (∀ l ∈ splitlines " iface wlan0-test inet dhcp\nfoo\n".data,
        l ≠ headerText "wlan0".data "test".data)
    ∧ Scheme.delete (Scheme.mk "wlan0".data "test".data [])
        " iface wlan0-test inet dhcp\nfoo\n".data
      ≠ " iface wlan0-test inet dhcp\nfoo\n".data := by
  constructor
  · decide
  · decide

/-- C10: `delete` is idempotent — the first pass leaves no line that
strips to the stanza header, so a second pass keeps every line. -/
theorem C10_delete_idempotent (s : Scheme) (content : Str) :
    Scheme.delete s (Scheme.delete s content) = Scheme.delete s content := by
  have hne := headerText_ne_nil s.interface s.name
  have hwf : LinesWF (keepLines (headerText s.interface s.name) (splitKeep content) false) :=
    linesWF_sublist (keepLines_sublist _ _ _) (splitKeep_wf content)
  conv_lhs => rw [Scheme.delete, Scheme.delete]
  rw [splitKeep_of_flatten _ hwf,
    keepLines_noop _ (keepLines_no_header hne _ _), Scheme.delete]

/-! ### Claim C9: duplicate option keys -/

/-- First-match lookup in an association list: what reading a key from
the options dict observes. -/
def lookupOpt : List (Str × Str) → Str → Option Str
  | [], _ => none
  | p :: m, k => if p.1 = k then some p.2 else lookupOpt m k

/-- Left-biased choice on optional values. -/
def oElse : Option Str → Option Str → Option Str
  | some a, _ => some a
  | none, b => b

/-- The value of the last pair with the given key, if any. -/
def lastVal (ps : List (Str × Str)) (q : Str) : Option Str :=
  ps.foldl (fun r p => if p.1 = q then some p.2 else r) none

/-- Boolean membership in a key list. -/
def memB (x : Str) (l : List Str) : Bool := l.any (fun y => y = x)

/-- Keep the first occurrence of each element, dropping the later ones. -/
def firstOccurDedup : List Str → List Str
  | [] => []
  | k :: rest => k :: firstOccurDedup (rest.filter (fun x => x ≠ k))
termination_by l => l.length
decreasing_by
  simp only [List.length_cons]
  exact Nat.lt_succ_of_le (List.length_filter_le _ _)

theorem memB_iff {x : Str} {l : List Str} : memB x l = true ↔ x ∈ l := by
  rw [memB, List.any_eq_true]
  constructor
  · rintro ⟨y, hy, he⟩
    rw [decide_eq_true_eq] at he
    exact he ▸ hy
  · intro h
    exact ⟨x, h, by simp⟩

theorem memB_eq_false {x : Str} {l : List Str} (h : x ∉ l) : memB x l = false := by
  rw [Bool.eq_false_iff]
  intro ht
  exact h (memB_iff.mp ht)

theorem memB_append (x : Str) (l1 l2 : List Str) :
    memB x (l1 ++ l2) = (memB x l1 || memB x l2) := by
  simp [memB, List.any_append]

theorem oElse_none (x : Option Str) : oElse x none = x := by
  cases x <;> rfl

theorem lookupOpt_map_self : ∀ (m : List (Str × Str)) (k v : Str), k ∈ dictKeys m →
    lookupOpt (m.map (fun p => if p.1 = k then (k, v) else p)) k = some v
  | [], k, _, h => absurd h (List.not_mem_nil k)
  | p :: m, k, v, h => by
    by_cases hp : p.1 = k
    · rw [List.map_cons, if_pos hp, lookupOpt, if_pos rfl]
    · rw [List.map_cons, if_neg hp, lookupOpt, if_neg hp]
      rcases List.mem_cons.mp (show k ∈ p.1 :: dictKeys m from h) with he | hm
      · exact absurd he.symm hp
      · exact lookupOpt_map_self m k v hm

theorem lookupOpt_append_self : ∀ (m : List (Str × Str)) (k v : Str), k ∉ dictKeys m →
    lookupOpt (m ++ [(k, v)]) k = some v
  | [], k, v, _ => by rw [List.nil_append, lookupOpt, if_pos rfl]
  | p :: m, k, v, h => by
    have hp : p.1 ≠ k := fun e =>
      h (show k ∈ p.1 :: dictKeys m from e ▸ List.mem_cons_self _ _)
    rw [List.cons_append, lookupOpt, if_neg hp]
    exact lookupOpt_append_self m k v
      (fun hm => h (List.mem_cons_of_mem _ hm))

/-- Inserting a key makes lookup of that key return the new value. -/
theorem lookupOpt_insert_self (m : List (Str × Str)) (k v : Str) :
    lookupOpt (dictInsert m k v) k = some v := by
  rw [dictInsert]
  by_cases hmem : m.any (fun p => p.1 = k) = true
  · rw [if_pos hmem]
    exact lookupOpt_map_self m k v ((any_key_iff m k).mp hmem)
  · rw [if_neg hmem]
    exact lookupOpt_append_self m k v (fun hm => hmem ((any_key_iff m k).mpr hm))

theorem lookupOpt_map_other : ∀ (m : List (Str × Str)) (k v q : Str), q ≠ k →
    lookupOpt (m.map (fun p => if p.1 = k then (k, v) else p)) q = lookupOpt m q
  | [], _, _, _, _ => rfl
  | p :: m, k, v, q, hq => by
    by_cases hp : p.1 = k
    · rw [List.map_cons, if_pos hp, lookupOpt, lookupOpt,
        if_neg (show ¬ k = q from fun e => hq e.symm),
        if_neg (show ¬ p.1 = q from fun e => hq (e.symm.trans hp)),
        lookupOpt_map_other m k v q hq]
    · rw [List.map_cons, if_neg hp, lookupOpt, lookupOpt]
      by_cases hpq : p.1 = q
      · rw [if_pos hpq, if_pos hpq]
      · rw [if_neg hpq, if_neg hpq, lookupOpt_map_other m k v q hq]

theorem lookupOpt_append_other : ∀ (m : List (Str × Str)) (k v q : Str), q ≠ k →
    lookupOpt (m ++ [(k, v)]) q = lookupOpt m q
  | [], k, v, q, hq => by
    have hk : ¬ k = q := fun e => hq e.symm
    simp [lookupOpt, hk]
  | p :: m, k, v, q, hq => by
    rw [List.cons_append, lookupOpt, lookupOpt]
    by_cases hpq : p.1 = q
    · rw [if_pos hpq, if_pos hpq]
    · rw [if_neg hpq, if_neg hpq, lookupOpt_append_other m k v q hq]

/-- Inserting one key leaves lookups of other keys unchanged. -/
theorem lookupOpt_insert_other (m : List (Str × Str)) (k v q : Str) (hq : q ≠ k) :
    lookupOpt (dictInsert m k v) q = lookupOpt m q := by
  rw [dictInsert]
  by_cases hmem : m.any (fun p => p.1 = k) = true
  · rw [if_pos hmem]
    exact lookupOpt_map_other m k v q hq
  · rw [if_neg hmem]
    exact lookupOpt_append_other m k v q hq

theorem foldl_upd_init (q : Str) : ∀ (ps : List (Str × Str)) (r : Option Str),
    ps.foldl (fun r p => if p.1 = q then some p.2 else r) r = oElse (lastVal ps q) r
  | [], r => by cases r <;> rfl
  | p :: ps, r => by
    have hcons : lastVal (p :: ps) q
        = oElse (lastVal ps q) (if p.1 = q then some p.2 else none) := by
      rw [lastVal, List.foldl_cons]
      exact foldl_upd_init q ps _
    rw [List.foldl_cons, hcons, foldl_upd_init q ps]
    cases lastVal ps q <;> by_cases hp : p.1 = q <;> simp [oElse, hp]

/-- Looking up any key in the folded dict observes the last inserted
value for that key. -/
theorem lookupOpt_optionsFold (q : Str) : ∀ (ps acc : List (Str × Str)),
    lookupOpt (ps.foldl (fun m p => dictInsert m p.1 p.2) acc) q
      = oElse (lastVal ps q) (lookupOpt acc q)
  | [], acc => rfl
  | p :: ps, acc => by
    have hcons : lastVal (p :: ps) q
        = oElse (lastVal ps q) (if p.1 = q then some p.2 else none) := by
      rw [lastVal, List.foldl_cons]
      exact foldl_upd_init q ps _
    rw [List.foldl_cons, lookupOpt_optionsFold q ps (dictInsert acc p.1 p.2), hcons]
    by_cases hp : p.1 = q
    · rw [show lookupOpt (dictInsert acc p.1 p.2) q = some p.2 from
        hp ▸ lookupOpt_insert_self acc p.1 p.2]
      cases lastVal ps q <;> simp [oElse, hp]
    · rw [lookupOpt_insert_other acc p.1 p.2 q (fun e => hp e.symm)]
      cases lastVal ps q <;> simp [oElse, hp]

theorem dictKeys_insert_mem {m : List (Str × Str)} {k : Str} (v : Str)
    (h : k ∈ dictKeys m) : dictKeys (dictInsert m k v) = dictKeys m := by
  rw [dictInsert, if_pos ((any_key_iff m k).mpr h), dictKeys, dictKeys, List.map_map]
  apply List.map_congr_left
  intro p _
  by_cases hpk : p.1 = k
  · simp [hpk]
  · simp [hpk]

theorem dictKeys_insert_fresh {m : List (Str × Str)} {k : Str} (v : Str)
    (h : k ∉ dictKeys m) : dictKeys (dictInsert m k v) = dictKeys m ++ [k] := by
  rw [dictInsert_fresh h, dictKeys, List.map_append]
  rfl

/-- The keys of the folded dict: the keys already present, then the
fresh keys of the pair list in first-occurrence order. -/
theorem dictKeys_optionsFold : ∀ (ps acc : List (Str × Str)),
    dictKeys (ps.foldl (fun m p => dictInsert m p.1 p.2) acc)
      = dictKeys acc
        ++ firstOccurDedup ((dictKeys ps).filter (fun x => !memB x (dictKeys acc)))
  | [], acc => by
    rw [show dictKeys ([] : List (Str × Str)) = [] from rfl, List.filter_nil,
      firstOccurDedup, List.append_nil]
    rfl
  | p :: ps, acc => by
    rw [List.foldl_cons, dictKeys_optionsFold ps (dictInsert acc p.1 p.2),
      show dictKeys (p :: ps) = p.1 :: dictKeys ps from rfl, List.filter_cons]
    by_cases hmem : p.1 ∈ dictKeys acc
    · rw [dictKeys_insert_mem p.2 hmem,
        if_neg (by rw [memB_iff.mpr hmem]; decide)]
    · rw [dictKeys_insert_fresh p.2 hmem,
        if_pos (by rw [memB_eq_false hmem]; decide), firstOccurDedup,
        List.append_assoc, List.singleton_append]
      congr 2
      apply congrArg firstOccurDedup
      rw [List.filter_filter]
      apply List.filter_congr
      intro x _
      rw [memB_append]
      by_cases hxa : x ∈ dictKeys acc
      · rw [memB_iff.mpr hxa]
        simp
      · rw [memB_eq_false hxa]
        by_cases hxp : x = p.1
        · subst hxp
          simp [memB]
        · have hpx : ¬ (p.1 = x) := fun e => hxp e.symm
          simp [memB, hxp, hpx]

theorem firstOccurDedup_mem : ∀ (l : List Str) (x : Str),
    x ∈ firstOccurDedup l ↔ x ∈ l
  | [], x => by rw [firstOccurDedup]
  | k :: rest, x => by
    rw [firstOccurDedup]
    by_cases hx : x = k
    · subst hx
      simp
    · rw [List.mem_cons, List.mem_cons]
      have ih := firstOccurDedup_mem (rest.filter (fun x => x ≠ k)) x
      rw [ih, List.mem_filter]
      simp [hx]
termination_by l => l.length
decreasing_by
  simp only [List.length_cons]
  exact Nat.lt_succ_of_le (List.length_filter_le _ _)

theorem firstOccurDedup_nodup : ∀ l : List Str, (firstOccurDedup l).Nodup
  | [] => by rw [firstOccurDedup]; exact List.nodup_nil
  | k :: rest => by
    rw [firstOccurDedup]
    refine List.Nodup.cons ?_ (firstOccurDedup_nodup (rest.filter (fun x => x ≠ k)))
    intro hmem
    rw [firstOccurDedup_mem, List.mem_filter] at hmem
    simp at hmem
termination_by l => l.length
decreasing_by
  simp only [List.length_cons]
  exact Nat.lt_succ_of_le (List.length_filter_le _ _)

theorem nodup_filter_length_one {l : List Str} {k : Str} (hnd : l.Nodup) (hm : k ∈ l) :
    (l.filter (fun x => x = k)).length = 1 := by
  induction l with
  | nil => cases hm
  | cons a l ih =>
    rw [List.filter_cons]
    rcases List.mem_cons.mp hm with he | hm2
    · subst he
      rw [if_pos (by simp)]
      have hnotin : k ∉ l := (List.nodup_cons.mp hnd).1
      have hfe : l.filter (fun x => x = k) = [] := by
        rw [List.filter_eq_nil_iff]
        intro b hb hba
        rw [decide_eq_true_eq] at hba
        exact hnotin (hba ▸ hb)
      rw [hfe]
      rfl
    · have hka : ¬ (a = k) := fun e => (List.nodup_cons.mp hnd).1 (e ▸ hm2)
      rw [if_neg (by simp [hka])]
      exact ih (List.nodup_cons.mp hnd).2 hm2

/-- C9: in a stanza whose option lines repeat a key, the parser yields a
scheme whose options contain the key exactly once, bound to the value of
its last occurrence, at the position of its first occurrence: the key
list of the parsed mapping is the first-occurrence dedup of the option
lines' key list, and lookup observes the last value. -/
theorem C9_duplicate_keys (itf nm : Str) (ps : List (Str × Str)) (k : Str)
    (hi : ValidInterface itf) (hn : ValidName nm) (hp : ∀ p ∈ ps, WfOption p.1 p.2)
    (hdup : 1 < ((dictKeys ps).filter (fun x => x = k)).length) :
    extract_schemes (mkStanza itf nm ps) = .ok [Scheme.mk itf nm (optionsDict ps)]
    ∧ ((dictKeys (optionsDict ps)).filter (fun x => x = k)).length = 1
    ∧ lookupOpt (optionsDict ps) k = lastVal ps k
    ∧ dictKeys (optionsDict ps) = firstOccurDedup (dictKeys ps) := by
  have hkeys : dictKeys (optionsDict ps) = firstOccurDedup (dictKeys ps) := by
    have h := dictKeys_optionsFold ps []
    rw [show dictKeys ([] : List (Str × Str)) = [] from rfl, List.nil_append] at h
    rw [optionsDict, h]
    apply congrArg firstOccurDedup
    have : ∀ x ∈ dictKeys ps, (!memB x ([] : List Str)) = true := by
      intro x _
      rfl
    rw [List.filter_eq_self.mpr this]
  have hmemk : k ∈ dictKeys ps := by
    rcases hfe : (dictKeys ps).filter (fun x => x = k) with _ | ⟨x, xs⟩
    · rw [hfe] at hdup
      simp at hdup
    · have hx : x ∈ (dictKeys ps).filter (fun x => x = k) := by
        rw [hfe]
        exact List.mem_cons_self _ _
      have hx2 := List.mem_filter.mp hx
      have hxk : x = k := by
        have := hx2.2
        rwa [decide_eq_true_eq] at this
      exact hxk ▸ hx2.1
  refine ⟨extract_mkStanza itf nm ps hi hn hp, ?_, ?_, hkeys⟩
  · rw [hkeys]
    exact nodup_filter_length_one (firstOccurDedup_nodup (dictKeys ps))
      ((firstOccurDedup_mem _ k).mpr hmemk)
  · have h := lookupOpt_optionsFold k ps []
    rw [show lookupOpt ([] : List (Str × Str)) k = none from rfl, oElse_none] at h
    exact h

/-- C9 witness: a stanza repeating the key `key` parses to a single
scheme whose mapping holds `key` once, first, with the later value. -/
theorem C9_duplicate_keys_witness :
    extract_schemes (mkStanza "wlan0".data "work".data
        [("key".data, "a".data), ("other".data, "x".data), ("key".data, "b".data)])
      = .ok [Scheme.mk "wlan0".data "work".data
          [("key".data, "b".data), ("other".data, "x".data)]] := by
  have h := (C9_duplicate_keys "wlan0".data "work".data
      [("key".data, "a".data), ("other".data, "x".data), ("key".data, "b".data)]
      "key".data (Or.inr ⟨'0', by decide, by decide⟩) ⟨by decide, by decide⟩
      (by decide) (by decide)).1
  rw [h]
  rfl

end Wifi
